import Mathlib

/-!
Verification of the btrsnap snapshot engine (src/btrsnap/btrsnap.py).

Snapshot identifiers are Python strings; Python compares strings
lexicographically over their code points, which is exactly the
lexicographic (Lex) order on the underlying character list.  We therefore
model an identifier as a Lean String and compare identifiers through the
linear order on String.data (the Mathlib String order coincides with it via
String.lt_iff_toList_lt, but the data order is kernel-computable).

A snapshot directory listing is modelled as a List String: the names of
the subdirectories of a repository location whose names match the
btrsnap timestamp pattern (SnapshotsMixin.snapshots, lines 62-76).  The
filesystem guarantees the names are distinct; theorems that need this
take a Nodup hypothesis.
-/

namespace Btrsnap

/-- Python string comparison a < b, i.e. strict lexicographic order on the
character sequences. -/
def strlt (a b : String) : Prop := a.data < b.data

/-- Python string comparison a <= b. -/
def strle (a b : String) : Prop := a.data ≤ b.data

instance : DecidableRel strlt := fun a b => inferInstanceAs (Decidable (a.data < b.data))

instance : DecidableRel strle := fun a b => inferInstanceAs (Decidable (a.data ≤ b.data))

/-- Ascending comparison used by Python list.sort(). -/
def strleRel : String → String → Prop := strle

/-- Descending comparison used by Python list.sort(reverse=True). -/
def strgeRel : String → String → Prop := fun a b => strle b a

instance : DecidableRel strleRel := fun a b => inferInstanceAs (Decidable (strle a b))

instance : DecidableRel strgeRel := fun a b => inferInstanceAs (Decidable (strle b a))

instance : IsTotal String strleRel := ⟨fun a b => le_total a.data b.data⟩

instance : IsTrans String strleRel := ⟨fun _ _ _ h h2 => le_trans h h2⟩

instance : IsTotal String strgeRel := ⟨fun a b => le_total b.data a.data⟩

instance : IsTrans String strgeRel := ⟨fun _ _ _ h h2 => le_trans h2 h⟩

/-- Python list.sort() on a list of snapshot names (ascending). -/
def sortAsc (l : List String) : List String := List.insertionSort strleRel l

/-- Python list.sort(reverse=True) on a list of snapshot names (descending,
newest first); this is SnapshotsMixin.snapshots, line 75. -/
def sortDesc (l : List String) : List String := List.insertionSort strgeRel l

/-- The chained transfers of the while-loop of sendreceive (lines 508-514):
after the first transfer of diff[0], each remaining element of diff is sent
with the element popped just before it as parent. -/
def chainSteps : String → List String → List (Option String × String)
  | _, [] => []
  | prev, x :: xs => (some prev, x) :: chainSteps x xs

/-- diff = set(send snapshots) - set(receive snapshots), sorted ascending
(sendreceive, lines 490-492). -/
def diffList (A B : List String) : List String :=
  sortAsc (A.dedup.filter (fun x => decide (x ∉ B)))

/-- union = set(send snapshots) & set(receive snapshots), sorted ascending
(sendreceive, lines 493-495; the variable is named union in the source but
holds the intersection). -/
def unionList (A B : List String) : List String :=
  sortAsc (A.dedup.filter (fun x => decide (x ∈ B)))

/-- The synchronization plan of sendreceive (lines 488-514), as the ordered
list of (parent, snapshot) transfer steps it performs: the first element of
diff is sent with parent union[-1] when union is non-empty and
union[-1] < diff[0], with no parent otherwise; the remaining elements of
diff follow, chained to their predecessor. -/
def planSync (A B : List String) : List (Option String × String) :=
  match diffList A B with
  | [] => []
  | d0 :: rest =>
    match (unionList A B).getLast? with
    | some m => if strlt m d0 then (some m, d0) :: chainSteps d0 rest
                else (none, d0) :: chainSteps d0 rest
    | none => (none, d0) :: chainSteps d0 rest

/-- Runs a sequence of fallible actions in order, stopping at the first
failure, as a Python for-loop over calls that may raise stops at the first
exception.  Returns the trace of the attempted actions and whether all of
them succeeded. -/
def runAll {β γ : Type} (act : β → γ × Bool) : List β → List γ × Bool
  | [] => ([], true)
  | b :: rest =>
    if (act b).2 then
      ((act b).1 :: (runAll act rest).1, (runAll act rest).2)
    else ([(act b).1], false)

/-- A Python value passed as the keep argument of unsnap: an int or a float
(the CLI only ever passes ints; floats model the "not an integer at all"
case of the keep check on line 358). -/
inductive PyNum : Type where
  | int (n : ℤ)
  | float (q : ℚ)
deriving DecidableEq

/-- Python keep >= 0. -/
def PyNum.nonneg : PyNum → Bool
  | .int n => decide (0 ≤ n)
  | .float q => decide (0 ≤ q)

/-- Python isinstance(keep, int). -/
def PyNum.isInt : PyNum → Bool
  | .int _ => true
  | .float _ => false

/-- Observable outcome of unsnap (lines 343-369). -/
inductive UnsnapResult : Type where
  | keepError
  | btrfsError
  | deleted (n : ℕ)
  | notDeleting
deriving DecidableEq

/-- unsnap (lines 354-369): sort the snapshot names newest first, validate
keep, and delete every snapshot past position keep, newest first, through
Btrfs.unsnap, which raises BtrfsError on a non-zero exit code (lines
270-285); an exception propagates out of the deletion loop.  The argument
fails says which identifiers the external btrfs tool fails to delete.
Returns the deletions attempted, in order, and the outcome. -/
def unsnap (S : List String) (keep : PyNum) (fails : String → Bool) :
    List String × UnsnapResult :=
  let snapshots := sortDesc S
  if !keep.nonneg || !keep.isInt then ([], .keepError)
  else
    match keep with
    | .int n =>
      if n < (snapshots.length : ℤ) then
        let snapsToDelete := snapshots.drop n.toNat
        match runAll (fun s => (s, ! fails s)) snapsToDelete with
        | (att, true) => (att, .deleted snapsToDelete.length)
        | (att, false) => (att, .btrfsError)
      else ([], .notDeleting)
    | .float _ => ([], .keepError)

/-- Execution of one sendreceive synchronization (lines 499-514): the steps
of the plan run in order and a BtrfsError raised by Btrfs.receive (lines
308-326) propagates, aborting the remaining steps.  The argument fails
says which transfer steps the external btrfs tool fails on. -/
def sendreceiveRun (A B : List String) (fails : Option String × String → Bool) :
    List (Option String × String) × Bool :=
  runAll (fun st => (st, ! fails st)) (planSync A B)

/-- Execution of sendreceive_deep (lines 544-551): sendreceive runs for each
sibling repository pair in order, with no exception handling around the
calls, so a BtrfsError raised inside one call propagates out of the loop.
Each repository is a pair (send listing, receive listing).  Returns the
per-repository traces of the synchronizations that ran. -/
def sendreceiveDeepRun (repos : List (List String × List String))
    (fails : Option String × String → Bool) :
    List (List (Option String × String)) × Bool :=
  runAll (fun r => sendreceiveRun r.1 r.2 fails) repos

/-- The character Python writes for the decimal digit d. -/
def digitChar (d : ℕ) : Char := Char.ofNat (48 + d)

/-- Python format {:04d} for counters in range: the four decimal digits of
c, zero padded (SnapPath.timestamp builds counters 1..9999 this way; the
value built for counter 10000 is discarded by the raise on line 210 before
any use). -/
def pad4 (c : ℕ) : String :=
  ⟨[digitChar (c / 1000 % 10), digitChar (c / 100 % 10),
    digitChar (c / 10 % 10), digitChar (c % 10)]⟩

/-- The candidate timestamp built on line 202 from the day prefix
(today.isoformat()) and the counter. -/
def candidate (day : String) (c : ℕ) : String := day ++ "-" ++ pad4 c

/-- One pass of the while loop of SnapPath.timestamp (lines 200-213), as a
fuel-indexed recursion: build the candidate, refresh the
less_than_last_snapshot flag, raise (none) once the counter passes 9999,
and otherwise loop while the candidate is taken or still not past the most
recent snapshot.  The fuel only bounds the recursion; it never runs out
when it starts at least at 10001. -/
def tsLoop (snapshots : List String) (day lastSnapshot : String) :
    Bool → ℕ → ℕ → Option String
  | _, _, 0 => none
  | ltls, counter, fuel + 1 =>
    let timestamp := candidate day counter
    let ltls2 := ltls && decide (strle timestamp lastSnapshot)
    if 9999 < counter then none
    else if timestamp ∈ snapshots ∨ ltls2 = true then
      tsLoop snapshots day lastSnapshot ltls2 (counter + 1) fuel
    else some timestamp

/-- SnapPath.timestamp (lines 180-213): the snapshot names sorted newest
first; when any exist the loop starts with last_snapshot = snapshots[0]
and less_than_last_snapshot = True.  Returns none for the raise on line
210 (more than 9999 snapshots for the day). -/
def timestamp (S : List String) (day : String) (counter : ℕ) : Option String :=
  let snapshots := sortDesc S
  match snapshots with
  | [] => tsLoop snapshots day ("") false counter 10001
  | lastSnapshot :: _ => tsLoop snapshots day lastSnapshot true counter 10001

/-- The date part of a snapshot identifier YYYY-MM-DD-NNNN: its first ten
characters. -/
def dateOf (s : String) : String := ⟨s.data.take 10⟩


/-! ### Order and sorting infrastructure -/

theorem strle_refl (a : String) : strle a a := le_refl a.data

theorem strle_trans {a b c : String} (h : strle a b) (h2 : strle b c) : strle a c :=
  le_trans h h2

theorem strle_of_strlt {a b : String} (h : strlt a b) : strle a b := le_of_lt h

theorem strlt_of_strlt_of_strle {a b c : String} (h : strlt a b) (h2 : strle b c) :
    strlt a c := lt_of_lt_of_le h h2

theorem strlt_of_strle_of_strlt {a b c : String} (h : strle a b) (h2 : strlt b c) :
    strlt a c := lt_of_le_of_lt h h2

theorem strlt_of_not_strle {a b : String} (h : ¬ strle a b) : strlt b a := lt_of_not_le h

theorem not_strle_of_strlt {a b : String} (h : strlt a b) : ¬ strle b a := not_le_of_lt h

theorem string_eq_of_data_eq {a b : String} (h : a.data = b.data) : a = b := by
  cases a; cases b; exact congrArg String.mk h

theorem strlt_of_strle_of_ne {a b : String} (h : strle a b) (hne : a ≠ b) : strlt a b :=
  lt_of_le_of_ne h (fun hd => hne (string_eq_of_data_eq hd))

theorem mem_sortAsc {l : List String} {x : String} : x ∈ sortAsc l ↔ x ∈ l :=
  List.mem_insertionSort strleRel

theorem mem_sortDesc {l : List String} {x : String} : x ∈ sortDesc l ↔ x ∈ l :=
  List.mem_insertionSort strgeRel

theorem sortAsc_perm (l : List String) : List.Perm (sortAsc l) l := List.perm_insertionSort strleRel l

theorem sortDesc_perm (l : List String) : List.Perm (sortDesc l) l := List.perm_insertionSort strgeRel l

theorem sortAsc_sorted (l : List String) : List.Sorted strleRel (sortAsc l) :=
  List.sorted_insertionSort strleRel l

theorem sortDesc_sorted (l : List String) : List.Sorted strgeRel (sortDesc l) :=
  List.sorted_insertionSort strgeRel l

theorem sortAsc_nodup {l : List String} (h : l.Nodup) : (sortAsc l).Nodup :=
  (sortAsc_perm l).nodup_iff.mpr h

theorem sortDesc_nodup {l : List String} (h : l.Nodup) : (sortDesc l).Nodup :=
  (sortDesc_perm l).nodup_iff.mpr h

theorem sortAsc_eq_nil_iff {l : List String} : sortAsc l = [] ↔ l = [] := by
  constructor
  · intro h
    have := (sortAsc_perm l).length_eq
    rw [h] at this
    exact List.length_eq_zero.mp this.symm
  · intro h; subst h; rfl

/-- A nodup list sorted weakly ascending is sorted strictly ascending. -/
theorem sorted_strlt_of_sorted_nodup {l : List String}
    (hs : List.Sorted strleRel l) (hn : l.Nodup) : List.Sorted strlt l :=
  (hs.and hn).imp (fun h => strlt_of_strle_of_ne h.1 h.2)

/-- A nodup list sorted weakly descending is sorted strictly descending. -/
theorem sorted_strgt_of_sorted_nodup {l : List String}
    (hs : List.Sorted strgeRel l) (hn : l.Nodup) :
    List.Sorted (fun a b => strlt b a) l :=
  (hs.and hn).imp (fun h => strlt_of_strle_of_ne h.1 (fun he => h.2 he.symm))

/-- The head of a descending-sorted list bounds every element from above. -/
theorem head_max_of_sorted_strge {m : String} {rest : List String}
    (hs : List.Sorted strgeRel (m :: rest)) : ∀ x ∈ m :: rest, strle x m := by
  intro x hx
  rcases List.mem_cons.mp hx with h | h
  · subst h; exact strle_refl x
  · exact (List.sorted_cons.mp hs).1 x h

/-- The last element of an ascending-sorted list bounds every element from
above. -/
theorem getLast_max_of_sorted_strle :
    ∀ {l : List String} {m : String}, List.Sorted strleRel l → l.getLast? = some m →
      ∀ x ∈ l, strle x m := by
  intro l
  induction l with
  | nil => intro m _ h; simp at h
  | cons a t ih =>
    intro m hs hm x hx
    cases t with
    | nil =>
      simp at hm hx
      subst hm; subst hx; exact strle_refl x
    | cons b t2 =>
      rw [List.getLast?_cons_cons] at hm
      have hs2 := (List.sorted_cons.mp hs).2
      rcases List.mem_cons.mp hx with h | h
      · subst h
        have hxb : strleRel x b := (List.sorted_cons.mp hs).1 b (List.mem_cons_self b t2)
        have hbm : strle b m := ih hs2 hm b (List.mem_cons_self b t2)
        exact strle_trans hxb hbm
      · exact ih hs2 hm x h

/-- Trace-and-abort behaviour of a loop over fallible actions: the attempted
actions are the successful prefix, plus the first failing action when there
is one. -/
theorem runAll_eq {β γ : Type} (act : β → γ × Bool) (l : List β) :
    runAll act l =
      match l.dropWhile (fun b => (act b).2) with
      | [] => (l.map (fun b => (act b).1), true)
      | x :: _ =>
        ((l.takeWhile (fun b => (act b).2)).map (fun b => (act b).1) ++ [(act x).1], false) := by
  induction l with
  | nil => simp [runAll]
  | cons b t ih =>
    by_cases h : (act b).2 = true
    · rw [runAll, if_pos h, List.dropWhile_cons, if_pos h, List.takeWhile_cons, if_pos h, ih]
      cases hd : t.dropWhile (fun b => (act b).2) with
      | nil => simp
      | cons x xs => simp
    · have hb : (act b).2 = false := by simpa using h
      rw [runAll, if_neg (by simp [hb]), List.dropWhile_cons, if_neg (by simp [hb]),
        List.takeWhile_cons, if_neg (by simp [hb])]
      simp

theorem runAll_of_all_ok {β γ : Type} (act : β → γ × Bool) (l : List β)
    (h : ∀ b ∈ l, (act b).2 = true) :
    runAll act l = (l.map (fun b => (act b).1), true) := by
  rw [runAll_eq]
  have hd : l.dropWhile (fun b => (act b).2) = [] := List.dropWhile_eq_nil_iff.mpr h
  rw [hd]


/-! ### The synchronization plan -/

theorem mem_diffList {A B : List String} {x : String} :
    x ∈ diffList A B ↔ x ∈ A ∧ x ∉ B := by
  unfold diffList
  rw [mem_sortAsc, List.mem_filter, List.mem_dedup]
  simp

theorem mem_unionList {A B : List String} {x : String} :
    x ∈ unionList A B ↔ x ∈ A ∧ x ∈ B := by
  unfold unionList
  rw [mem_sortAsc, List.mem_filter, List.mem_dedup]
  simp

theorem diffList_nodup (A B : List String) : (diffList A B).Nodup :=
  sortAsc_nodup (List.Nodup.filter _ (List.nodup_dedup A))

theorem diffList_sorted (A B : List String) : List.Sorted strlt (diffList A B) :=
  sorted_strlt_of_sorted_nodup (sortAsc_sorted _) (diffList_nodup A B)

theorem unionList_sorted_le (A B : List String) : List.Sorted strleRel (unionList A B) :=
  sortAsc_sorted _

theorem diffList_eq_nil_iff {A B : List String} : diffList A B = [] ↔ A ⊆ B := by
  constructor
  · intro h x hx
    by_contra hB
    have : x ∈ diffList A B := mem_diffList.mpr ⟨hx, hB⟩
    rw [h] at this
    exact absurd this (List.not_mem_nil x)
  · intro h
    cases hd : diffList A B with
    | nil => rfl
    | cons d rest =>
      have : d ∈ diffList A B := by rw [hd]; exact List.mem_cons_self d rest
      rcases mem_diffList.mp this with ⟨hA, hB⟩
      exact absurd (h hA) hB

theorem chainSteps_eq_zipWith : ∀ (d0 : String) (rest : List String),
    chainSteps d0 rest = List.zipWith (fun p s => (some p, s)) (d0 :: rest) rest := by
  intro d0 rest
  induction rest generalizing d0 with
  | nil => rfl
  | cons x xs ih => simp [chainSteps, ih]

theorem chainSteps_map_snd : ∀ (d0 : String) (rest : List String),
    (chainSteps d0 rest).map Prod.snd = rest := by
  intro d0 rest
  induction rest generalizing d0 with
  | nil => rfl
  | cons x xs ih => simp [chainSteps, ih]

theorem chainSteps_parent_lt : ∀ (d0 : String) (rest : List String),
    List.Sorted strlt (d0 :: rest) →
    ∀ st ∈ chainSteps d0 rest, ∀ p, st.1 = some p → strlt p st.2 := by
  intro d0 rest
  induction rest generalizing d0 with
  | nil => intro _ st hst; simp [chainSteps] at hst
  | cons x xs ih =>
    intro hs st hst p hp
    rcases List.mem_cons.mp hst with h | h
    · subst h
      cases hp
      exact (List.sorted_cons.mp hs).1 x (List.mem_cons_self x xs)
    · exact ih x (List.sorted_cons.mp hs).2 st h p hp

/-- The first parent chosen by sendreceive (lines 500-507), written with the
last element of the sorted intersection as in the source. -/
def firstParent (A B : List String) (d0 : String) : Option String :=
  match (unionList A B).getLast? with
  | some m => if strlt m d0 then some m else none
  | none => none

theorem planSync_eq_of_diffList_cons {A B : List String} {d0 : String}
    {rest : List String} (hd : diffList A B = d0 :: rest) :
    planSync A B = (firstParent A B d0, d0) :: chainSteps d0 rest := by
  unfold planSync firstParent
  rw [hd]
  cases (unionList A B).getLast? with
  | none => rfl
  | some m =>
    by_cases h : strlt m d0 <;> simp [h]


/-- The head of an ascending-sorted list bounds every element from below. -/
theorem head_min_of_sorted_strle {d0 : String} {rest : List String}
    (hs : List.Sorted strleRel (d0 :: rest)) : ∀ x ∈ d0 :: rest, strle d0 x := by
  intro x hx
  rcases List.mem_cons.mp hx with h | h
  · subst h; exact strle_refl x
  · exact (List.sorted_cons.mp hs).1 x h

theorem unionList_eq_nil_iff {A B : List String} :
    unionList A B = [] ↔ ¬ ∃ x, x ∈ A ∧ x ∈ B := by
  constructor
  · rintro h ⟨x, hA, hB⟩
    have : x ∈ unionList A B := mem_unionList.mpr ⟨hA, hB⟩
    rw [h] at this
    exact absurd this (List.not_mem_nil x)
  · intro h
    cases hd : unionList A B with
    | nil => rfl
    | cons d rest =>
      have : d ∈ unionList A B := by rw [hd]; exact List.mem_cons_self d rest
      rcases mem_unionList.mp this with ⟨hA, hB⟩
      exact absurd ⟨d, hA, hB⟩ h

theorem getLast_mem_of_some {l : List String} {m : String}
    (h : l.getLast? = some m) : m ∈ l := by
  rcases List.mem_getLast?_eq_getLast (l := l) (x := m) h with ⟨hne, he⟩
  rw [he]
  exact List.getLast_mem hne

/-- C1: with diff = A minus B non-empty, the synchronization plan of
sendreceive is exactly a first step transferring min(diff), whose parent is
max(common) when the intersection is non-empty and its maximum is
lexicographically smaller than min(diff) and no parent otherwise, followed
by one step per remaining element of diff in ascending order, each step
chained to the immediately preceding element of diff; the steps are in
ascending snapshot order and every element of diff is transferred exactly
once. -/
theorem sendreceive_plan_structure (A B : List String)
    (hD : ∃ x, x ∈ A ∧ x ∉ B) :
    ∃ d0 rest, diffList A B = d0 :: rest ∧
      (∀ x ∈ diffList A B, strle d0 x) ∧
      (∀ x, x ∈ diffList A B ↔ x ∈ A ∧ x ∉ B) ∧
      List.Sorted strlt (diffList A B) ∧
      planSync A B = (firstParent A B d0, d0)
          :: List.zipWith (fun p s => (some p, s)) (d0 :: rest) rest ∧
      (∀ m, (unionList A B).getLast? = some m →
        (m ∈ A ∧ m ∈ B) ∧ ∀ x ∈ A, x ∈ B → strle x m) ∧
      ((unionList A B).getLast? = none ↔ ¬ ∃ x, x ∈ A ∧ x ∈ B) ∧
      (planSync A B).map Prod.snd = diffList A B := by
  obtain ⟨x, hA, hB⟩ := hD
  cases hd : diffList A B with
  | nil =>
    have : x ∈ diffList A B := mem_diffList.mpr ⟨hA, hB⟩
    rw [hd] at this
    exact absurd this (List.not_mem_nil x)
  | cons d0 rest =>
    refine ⟨d0, rest, rfl, ?_, ?_, ?_, ?_, ?_, ?_, ?_⟩
    · have hs : List.Sorted strleRel (diffList A B) := sortAsc_sorted _
      rw [hd] at hs
      exact head_min_of_sorted_strle hs
    · intro y
      rw [← hd]
      exact mem_diffList
    · have hs := diffList_sorted A B
      rw [hd] at hs
      exact hs
    · rw [planSync_eq_of_diffList_cons hd, chainSteps_eq_zipWith]
    · intro m hm
      constructor
      · exact mem_unionList.mp (getLast_mem_of_some hm)
      · intro y hyA hyB
        exact getLast_max_of_sorted_strle (unionList_sorted_le A B) hm y
          (mem_unionList.mpr ⟨hyA, hyB⟩)
    · rw [List.getLast?_eq_none_iff]
      exact unionList_eq_nil_iff
    · rw [planSync_eq_of_diffList_cons hd]
      simp [chainSteps_map_snd]

/-- C4: the synchronization plan of sendreceive is empty exactly when every
send-side snapshot is already present on the receive side. -/
theorem sendreceive_plan_empty_iff (A B : List String) :
    planSync A B = [] ↔ A ⊆ B := by
  constructor
  · intro h
    rw [← diffList_eq_nil_iff]
    cases hd : diffList A B with
    | nil => rfl
    | cons d0 rest =>
      rw [planSync_eq_of_diffList_cons hd] at h
      exact absurd h (List.cons_ne_nil _ _)
  · intro h
    have hd : diffList A B = [] := diffList_eq_nil_iff.mpr h
    unfold planSync
    rw [hd]

theorem strlt_of_firstParent_eq_some {A B : List String} {d0 m : String}
    (h : firstParent A B d0 = some m) : strlt m d0 := by
  unfold firstParent at h
  split at h
  · split at h
    · injection h with h2
      subst h2
      assumption
    · cases h
  · cases h

/-- C5: every step of a synchronization plan that carries a parent has a
parent lexicographically smaller than the snapshot it transfers. -/
theorem sendreceive_parent_lt (A B : List String) :
    ∀ st ∈ planSync A B, ∀ p, st.1 = some p → strlt p st.2 := by
  cases hd : diffList A B with
  | nil =>
    unfold planSync
    rw [hd]
    intro st hst
    exact absurd hst (List.not_mem_nil st)
  | cons d0 rest =>
    rw [planSync_eq_of_diffList_cons hd]
    intro st hst p hp
    rcases List.mem_cons.mp hst with h | h
    · subst h
      exact strlt_of_firstParent_eq_some hp
    · have hsort : List.Sorted strlt (d0 :: rest) := by
        rw [← hd]; exact diffList_sorted A B
      exact chainSteps_parent_lt d0 rest hsort st h p hp


/-! ### Retention pruning -/

theorem unsnap_int_eq (S : List String) (n : ℤ) (hn : 0 ≤ n) (fails : String → Bool) :
    unsnap S (.int n) fails =
      if n < ((sortDesc S).length : ℤ) then
        match runAll (fun s => (s, ! fails s)) ((sortDesc S).drop n.toNat) with
        | (att, true) => (att, .deleted ((sortDesc S).drop n.toNat).length)
        | (att, false) => (att, .btrfsError)
      else ([], .notDeleting) := by
  unfold unsnap
  have h1 : (PyNum.int n).nonneg = true := by simp [PyNum.nonneg, hn]
  rw [h1]
  rfl

/-- C2: with a non-negative integer keep, the retention pass of unsnap
deletes exactly the snapshots beyond position keep of the newest-first
ordering -- max(0, |S| - keep) of them -- each strictly older than every
retained snapshot, and performs the deletions in descending
(newest-excess-first) order. -/
theorem unsnap_retention (S : List String) (hS : S.Nodup) (keep : ℕ) :
    (unsnap S (.int keep) (fun _ => false)).1 = (sortDesc S).drop keep ∧
    (unsnap S (.int keep) (fun _ => false)).1.length = S.length - keep ∧
    (∀ d ∈ (unsnap S (.int keep) (fun _ => false)).1,
      ∀ r ∈ (sortDesc S).take keep, strlt d r) ∧
    List.Sorted (fun a b => strlt b a) (unsnap S (.int keep) (fun _ => false)).1 := by
  have htn : ((keep : ℤ)).toNat = keep := by simp
  have h1 : (unsnap S (.int keep) (fun _ => false)).1 = (sortDesc S).drop keep := by
    rw [unsnap_int_eq S keep (by positivity) _]
    by_cases hlen : (keep : ℤ) < ((sortDesc S).length : ℤ)
    · rw [if_pos hlen, runAll_of_all_ok _ _ (fun b _ => rfl), htn]
      simp
    · rw [if_neg hlen]
      have : (sortDesc S).length ≤ keep := by exact_mod_cast le_of_not_lt hlen
      rw [List.drop_eq_nil_of_le this]
  refine ⟨h1, ?_, ?_, ?_⟩
  · rw [h1, List.length_drop, (sortDesc_perm S).length_eq]
  · intro d hd r hr
    rw [h1] at hd
    have hp : List.Pairwise (fun a b => strlt b a) (sortDesc S) :=
      sorted_strgt_of_sorted_nodup (sortDesc_sorted S) (sortDesc_nodup hS)
    have hsplit := List.take_append_drop keep (sortDesc S)
    rw [← hsplit] at hp
    exact (List.pairwise_append.mp hp).2.2 r hr d hd
  · rw [h1]
    have hp : List.Pairwise (fun a b => strlt b a) (sortDesc S) :=
      sorted_strgt_of_sorted_nodup (sortDesc_sorted S) (sortDesc_nodup hS)
    exact List.Pairwise.sublist (List.drop_sublist keep (sortDesc S)) hp

/-- The claim that a failed deletion aborts only itself is false: here the
deletion of the newer excess snapshot fails and the older planned deletion
is never attempted, because the BtrfsError propagates out of the loop. -/
theorem unsnap_abort_counterexample :
    (sortDesc ["2024-01-01-0001", "2024-01-02-0001", "2024-01-03-0001"]).drop 1 =
      ["2024-01-02-0001", "2024-01-01-0001"] ∧
    unsnap ["2024-01-01-0001", "2024-01-02-0001", "2024-01-03-0001"] (.int 1)
        (fun s => s == "2024-01-02-0001") =
      (["2024-01-02-0001"], .btrfsError) ∧
    "2024-01-01-0001" ∉
      (unsnap ["2024-01-01-0001", "2024-01-02-0001", "2024-01-03-0001"] (.int 1)
        (fun s => s == "2024-01-02-0001")).1 := by decide

/-- C6 amended: a BtrfsError during retention pruning aborts that deletion
and all remaining planned deletions -- the attempted deletions are exactly
the successful prefix of the plan plus the first failing deletion -- and
the run reports a BtrfsError exactly when some planned deletion fails. -/
theorem unsnap_abort (S : List String) (n : ℤ) (hn : 0 ≤ n) (fails : String → Bool)
    (planned : List String)
    (hp : planned = if n < ((sortDesc S).length : ℤ) then (sortDesc S).drop n.toNat else []) :
    ((unsnap S (.int n) fails).1 =
      match planned.dropWhile (fun s => ! fails s) with
      | [] => planned
      | x :: _ => planned.takeWhile (fun s => ! fails s) ++ [x]) ∧
    ((unsnap S (.int n) fails).2 = .btrfsError ↔ ∃ s ∈ planned, fails s = true) := by
  rw [unsnap_int_eq S n hn fails]
  by_cases hlen : n < ((sortDesc S).length : ℤ)
  · rw [if_pos hlen] at hp ⊢
    subst hp
    rw [runAll_eq]
    cases hw : ((sortDesc S).drop n.toNat).dropWhile (fun s => ! fails s) with
    | nil =>
      constructor
      · simp
      · simp only []
        constructor
        · intro h; cases h
        · rintro ⟨s, hs, hfs⟩
          have := List.dropWhile_eq_nil_iff.mp hw s hs
          rw [hfs] at this
          cases this
    | cons x xs =>
      constructor
      · simp
      · simp only []
        constructor
        · intro _
          refine ⟨x, ?_, ?_⟩
          · have : x ∈ x :: xs := List.mem_cons_self x xs
            rw [← hw] at this
            exact (List.dropWhile_sublist _).subset this
          · have := List.head?_dropWhile_not (fun s => ! fails s) ((sortDesc S).drop n.toNat)
            rw [hw] at this
            simp at this
            exact this
        · intro _; trivial
  · rw [if_neg hlen] at hp ⊢
    subst hp
    refine ⟨rfl, ?_⟩
    constructor
    · intro h; cases h
    · rintro ⟨s, hs, _⟩
      exact absurd hs (List.not_mem_nil s)

/-- C8: a keep value that is not a non-negative integer fails the keep
check of unsnap with the policy error, and no deletion is attempted. -/
theorem unsnap_invalid_keep (S : List String) (fails : String → Bool) (keep : PyNum)
    (h : ∀ n : ℤ, 0 ≤ n → keep ≠ .int n) :
    unsnap S keep fails = ([], .keepError) := by
  cases keep with
  | int n =>
    have hn : ¬ (0 ≤ n) := fun hge => h n hge rfl
    simp [unsnap, PyNum.nonneg, PyNum.isInt, hn]
  | float q =>
    simp [unsnap, PyNum.isInt]


/-! ### Timestamp allocation -/

theorem sortDesc_eq_nil_iff {l : List String} : sortDesc l = [] ↔ l = [] := by
  constructor
  · intro h
    have := (sortDesc_perm l).length_eq
    rw [h] at this
    exact List.length_eq_zero.mp this.symm
  · intro h; subst h; rfl

theorem digitChar_lt : ∀ x, x < 10 → ∀ y, y < 10 → x < y → digitChar x < digitChar y := by
  decide

theorem digits_disj (a3 a2 a1 a0 b3 b2 b1 b0 : ℕ)
    (ha2 : a2 < 10) (ha1 : a1 < 10) (ha0 : a0 < 10)
    (hb2 : b2 < 10) (hb1 : b1 < 10) (hb0 : b0 < 10)
    (h : 1000 * a3 + 100 * a2 + 10 * a1 + a0 < 1000 * b3 + 100 * b2 + 10 * b1 + b0) :
    a3 < b3 ∨ (a3 = b3 ∧ (a2 < b2 ∨ (a2 = b2 ∧ (a1 < b1 ∨ (a1 = b1 ∧ a0 < b0))))) := by
  omega

theorem pad4_lt {c c2 : ℕ} (h : c < c2) (h9 : c2 ≤ 9999) :
    (pad4 c).data < (pad4 c2).data := by
  have hv1 : 1000 * (c / 1000 % 10) + 100 * (c / 100 % 10) + 10 * (c / 10 % 10) +
      c % 10 = c := by omega
  have hv2 : 1000 * (c2 / 1000 % 10) + 100 * (c2 / 100 % 10) + 10 * (c2 / 10 % 10) +
      c2 % 10 = c2 := by omega
  have hd := digits_disj (c / 1000 % 10) (c / 100 % 10) (c / 10 % 10) (c % 10)
    (c2 / 1000 % 10) (c2 / 100 % 10) (c2 / 10 % 10) (c2 % 10)
    (by omega) (by omega) (by omega) (by omega) (by omega) (by omega) (by omega)
  show List.Lex (fun a b => a < b) (pad4 c).data (pad4 c2).data
  unfold pad4
  simp only
  rcases hd with h3 | ⟨e3, h2 | ⟨e2, h1 | ⟨e1, h0⟩⟩⟩
  · exact List.Lex.rel (digitChar_lt _ (by omega) _ (by omega) h3)
  · rw [e3]
    exact List.Lex.cons (List.Lex.rel (digitChar_lt _ (by omega) _ (by omega) h2))
  · rw [e3, e2]
    exact List.Lex.cons (List.Lex.cons
      (List.Lex.rel (digitChar_lt _ (by omega) _ (by omega) h1)))
  · rw [e3, e2, e1]
    exact List.Lex.cons (List.Lex.cons (List.Lex.cons
      (List.Lex.rel (digitChar_lt _ (by omega) _ (by omega) h0))))

/-- Candidates for a fixed day are strictly increasing in the counter while
the counter stays in the four-digit range. -/
theorem candidate_mono {day : String} {c c2 : ℕ} (h : c < c2) (h9 : c2 ≤ 9999) :
    strlt (candidate day c) (candidate day c2) := by
  unfold candidate strlt
  rw [String.data_append, String.data_append]
  exact List.Lex.append_left (fun a b => a < b) (pad4_lt h h9) _

/-- A counter value the allocation loop cannot stop at: its candidate is
taken, or the loop still considers it not past the most recent snapshot. -/
def unusable (snaps : List String) (lastUsed : Bool) (lastSnapshot day : String)
    (c : ℕ) : Prop :=
  candidate day c ∈ snaps ∨ (lastUsed = true ∧ strle (candidate day c) lastSnapshot)

theorem tsLoop_succ (snaps : List String) (day lastSnapshot : String) (ltls : Bool)
    (counter fuel : ℕ) :
    tsLoop snaps day lastSnapshot ltls counter (fuel + 1) =
      if 9999 < counter then none
      else if candidate day counter ∈ snaps ∨
          (ltls && decide (strle (candidate day counter) lastSnapshot)) = true then
        tsLoop snaps day lastSnapshot
          (ltls && decide (strle (candidate day counter) lastSnapshot)) (counter + 1) fuel
      else some (candidate day counter) := rfl

/-- Master characterization of the allocation loop: provided the
less_than_last_snapshot flag is sound for the current counter, the loop
returns none exactly when every remaining counter up to 9999 is unusable,
and any returned timestamp is the candidate of a usable counter at most
9999. -/
theorem tsLoop_spec (snaps : List String) (day lastSnapshot : String) (lastUsed : Bool) :
    ∀ fuel counter ltls, 10000 < counter + fuel →
    (ltls = true → lastUsed = true) →
    (counter ≤ 9999 → lastUsed = true → strle (candidate day counter) lastSnapshot →
      ltls = true) →
    ((tsLoop snaps day lastSnapshot ltls counter fuel = none ↔
      ∀ k, counter ≤ k → k ≤ 9999 → unusable snaps lastUsed lastSnapshot day k)
    ∧ (∀ t, tsLoop snaps day lastSnapshot ltls counter fuel = some t →
        ∃ k, counter ≤ k ∧ k ≤ 9999 ∧ t = candidate day k ∧
          ¬ unusable snaps lastUsed lastSnapshot day k)) := by
  intro fuel
  induction fuel with
  | zero =>
    intro counter ltls hb h1 h2
    constructor
    · constructor
      · intro _ k hk h9k
        exact absurd h9k (by omega)
      · intro _; rfl
    · intro t ht
      simp [tsLoop] at ht
  | succ fuel ih =>
    intro counter ltls hb h1 h2
    by_cases h9 : 9999 < counter
    · rw [tsLoop_succ, if_pos h9]
      constructor
      · constructor
        · intro _ k hk h9k
          exact absurd h9k (by omega)
        · intro _; rfl
      · intro t ht; cases ht
    · rw [tsLoop_succ, if_neg h9]
      by_cases hc : candidate day counter ∈ snaps ∨
          (ltls && decide (strle (candidate day counter) lastSnapshot)) = true
      · rw [if_pos hc]
        have hb2 : 10000 < (counter + 1) + fuel := by omega
        have h1b : (ltls && decide (strle (candidate day counter) lastSnapshot)) = true →
            lastUsed = true := by
          intro hx
          rw [Bool.and_eq_true] at hx
          exact h1 hx.1
        have h2b : counter + 1 ≤ 9999 → lastUsed = true →
            strle (candidate day (counter + 1)) lastSnapshot →
            (ltls && decide (strle (candidate day counter) lastSnapshot)) = true := by
          intro hk9 hu hle
          have hlt : strlt (candidate day counter) (candidate day (counter + 1)) :=
            candidate_mono (by omega) (by omega)
          have hle0 : strle (candidate day counter) lastSnapshot :=
            strle_trans (strle_of_strlt hlt) hle
          rw [h2 (by omega) hu hle0]
          simp [hle0]
        obtain ⟨hiff, hsome⟩ := ih (counter + 1)
          (ltls && decide (strle (candidate day counter) lastSnapshot)) hb2 h1b h2b
        have hbad : unusable snaps lastUsed lastSnapshot day counter := by
          rcases hc with hmem | hltls2
          · exact Or.inl hmem
          · rw [Bool.and_eq_true] at hltls2
            exact Or.inr ⟨h1 hltls2.1, of_decide_eq_true hltls2.2⟩
        constructor
        · rw [hiff]
          constructor
          · intro h k hk h9k
            rcases Nat.eq_or_lt_of_le hk with he | hlt
            · rw [← he]; exact hbad
            · exact h k (by omega) h9k
          · intro h k hk h9k
            exact h k (by omega) h9k
        · intro t ht
          obtain ⟨k, hk1, hk2, hk3, hk4⟩ := hsome t ht
          exact ⟨k, by omega, hk2, hk3, hk4⟩
      · rw [if_neg hc]
        push_neg at hc
        obtain ⟨hc1, hc2⟩ := hc
        have hgood : ¬ unusable snaps lastUsed lastSnapshot day counter := by
          rintro (hmem | ⟨hu, hle⟩)
          · exact hc1 hmem
          · apply hc2
            rw [h2 (le_of_not_lt h9) hu hle]
            simp [hle]
        constructor
        · constructor
          · intro h; cases h
          · intro hall
            exact absurd (hall counter le_rfl (le_of_not_lt h9)) hgood
        · intro t ht
          injection ht with ht2
          exact ⟨counter, le_rfl, le_of_not_lt h9, ht2.symm, hgood⟩


theorem timestamp_eq_of_nil {S : List String} (h : sortDesc S = []) (day : String)
    (counter : ℕ) :
    timestamp S day counter = tsLoop (sortDesc S) day ("") false counter 10001 := by
  unfold timestamp
  rw [h]

theorem timestamp_eq_of_cons {S : List String} {lastSnapshot : String}
    {rest : List String} (h : sortDesc S = lastSnapshot :: rest) (day : String)
    (counter : ℕ) :
    timestamp S day counter = tsLoop (sortDesc S) day lastSnapshot true counter 10001 := by
  unfold timestamp
  rw [h]

/-- C3: a returned timestamp is never an element of the existing set, and it
is lexicographically greater than every existing identifier of the current
day. -/
theorem timestamp_fresh (S : List String) (day t : String)
    (h : timestamp S day 1 = some t) :
    t ∉ S ∧ ∀ s ∈ S, dateOf s = day → strlt s t := by
  cases hS : sortDesc S with
  | nil =>
    have hS0 : S = [] := sortDesc_eq_nil_iff.mp hS
    subst hS0
    exact ⟨List.not_mem_nil t, fun s hs => absurd hs (List.not_mem_nil s)⟩
  | cons lastSnapshot rest =>
    have hts : timestamp S day 1 = tsLoop (lastSnapshot :: rest) day lastSnapshot
        true 1 10001 := by
      rw [timestamp_eq_of_cons hS day 1, hS]
    rw [hts] at h
    obtain ⟨k, hk1, hk9, hkc, hgood⟩ :=
      (tsLoop_spec (lastSnapshot :: rest) day lastSnapshot true 10001 1 true (by omega)
        (fun _ => rfl) (fun _ _ _ => rfl)).2 t h
    rw [unusable] at hgood
    push_neg at hgood
    obtain ⟨hmem, hlast⟩ := hgood
    have hltlast : strlt lastSnapshot (candidate day k) :=
      strlt_of_not_strle (hlast rfl)
    have hsorted := sortDesc_sorted S
    rw [hS] at hsorted
    subst hkc
    constructor
    · intro htS
      apply hmem
      have : candidate day k ∈ sortDesc S := mem_sortDesc.mpr htS
      rw [hS] at this
      exact this
    · intro s hsS _
      have hs2 : s ∈ lastSnapshot :: rest := by
        have : s ∈ sortDesc S := mem_sortDesc.mpr hsS
        rw [hS] at this
        exact this
      exact strlt_of_strle_of_strlt (head_max_of_sorted_strge hsorted s hs2) hltlast

/-- C9: allocation fails exactly when every counter from 1 through 9999 for
the current day yields a candidate that is already present or not greater
than the most recent existing identifier, and a returned timestamp always
carries a counter of at most 9999. -/
theorem timestamp_exhaustion (S : List String) (day : String) :
    (timestamp S day 1 = none ↔
      ∀ c, 1 ≤ c → c ≤ 9999 →
        (candidate day c ∈ S ∨
          ∃ m, (sortDesc S).head? = some m ∧ strle (candidate day c) m)) ∧
    (∀ t, timestamp S day 1 = some t →
      ∃ c, 1 ≤ c ∧ c ≤ 9999 ∧ t = candidate day c) ∧
    (∀ m, (sortDesc S).head? = some m → m ∈ S ∧ ∀ s ∈ S, strle s m) := by
  cases hS : sortDesc S with
  | nil =>
    obtain ⟨hiff, hsome⟩ := tsLoop_spec (sortDesc S) day ("") false 10001 1 false
      (by omega) id (fun _ hx _ => hx)
    refine ⟨?_, ?_, ?_⟩
    · rw [timestamp_eq_of_nil hS day 1]
      constructor
      · intro h c hc1 hc9
        rcases hiff.mp h c hc1 hc9 with hx | ⟨hx, _⟩
        · rw [hS] at hx
          exact absurd hx (List.not_mem_nil _)
        · cases hx
      · intro h
        rcases h 1 le_rfl (by omega) with hx | ⟨m, hm, _⟩
        · have hS0 : S = [] := sortDesc_eq_nil_iff.mp hS
          rw [hS0] at hx
          exact absurd hx (List.not_mem_nil _)
        · cases hm
    · intro t ht
      rw [timestamp_eq_of_nil hS day 1] at ht
      obtain ⟨k, hk1, hk9, hkc, _⟩ := hsome t ht
      exact ⟨k, hk1, hk9, hkc⟩
    · intro m hm
      cases hm
  | cons m0 rest =>
    have hsorted := sortDesc_sorted S
    rw [hS] at hsorted
    have hmax : ∀ x ∈ m0 :: rest, strle x m0 := head_max_of_sorted_strge hsorted
    obtain ⟨hiff, hsome⟩ := tsLoop_spec (m0 :: rest) day m0 true 10001 1 true (by omega)
      (fun _ => rfl) (fun _ _ _ => rfl)
    have hts : timestamp S day 1 = tsLoop (m0 :: rest) day m0 true 1 10001 := by
      rw [timestamp_eq_of_cons hS day 1, hS]
    refine ⟨?_, ?_, ?_⟩
    · rw [hts, hiff]
      constructor
      · intro h c hc1 hc9
        rcases h c hc1 hc9 with hx | ⟨_, hx⟩
        · left
          have : candidate day c ∈ sortDesc S := by rw [hS]; exact hx
          exact mem_sortDesc.mp this
        · exact Or.inr ⟨m0, rfl, hx⟩
      · intro h c hc1 hc9
        rcases h c hc1 hc9 with hx | ⟨m, hm, hxle⟩
        · left
          have : candidate day c ∈ sortDesc S := mem_sortDesc.mpr hx
          rw [hS] at this
          exact this
        · injection hm with hm2
          right
          refine ⟨rfl, ?_⟩
          rw [hm2]
          exact hxle
    · intro t ht
      rw [hts] at ht
      obtain ⟨k, hk1, hk9, hkc, _⟩ := hsome t ht
      exact ⟨k, hk1, hk9, hkc⟩
    · intro m hm
      injection hm with hm2
      rw [← hm2]
      constructor
      · have h0 : m0 ∈ sortDesc S := by rw [hS]; exact List.mem_cons_self m0 rest
        exact mem_sortDesc.mp h0
      · intro s hs
        have hs2 : s ∈ m0 :: rest := by
          have h1 : s ∈ sortDesc S := mem_sortDesc.mpr hs
          rw [hS] at h1
          exact h1
        exact hmax s hs2

/-- C10: a returned timestamp is lexicographically greater than every
existing identifier, whatever its date; and when the most recent existing
identifier is at least the largest candidate of the day, allocation fails
rather than returning. -/
theorem timestamp_gt_max (S : List String) (day : String) :
    (∀ t, timestamp S day 1 = some t → ∀ s ∈ S, strlt s t) ∧
    (∀ m, (sortDesc S).head? = some m → strle (candidate day 9999) m →
      timestamp S day 1 = none) := by
  cases hS : sortDesc S with
  | nil =>
    refine ⟨?_, ?_⟩
    · intro t ht s hs
      have hS0 : S = [] := sortDesc_eq_nil_iff.mp hS
      rw [hS0] at hs
      exact absurd hs (List.not_mem_nil s)
    · intro m hm
      cases hm
  | cons m0 rest =>
    obtain ⟨hiff, hsome⟩ := tsLoop_spec (m0 :: rest) day m0 true 10001 1 true (by omega)
      (fun _ => rfl) (fun _ _ _ => rfl)
    have hts : timestamp S day 1 = tsLoop (m0 :: rest) day m0 true 1 10001 := by
      rw [timestamp_eq_of_cons hS day 1, hS]
    have hsorted := sortDesc_sorted S
    rw [hS] at hsorted
    refine ⟨?_, ?_⟩
    · intro t ht s hs
      rw [hts] at ht
      obtain ⟨k, _, hk9, hkc, hgood⟩ := hsome t ht
      rw [unusable] at hgood
      push_neg at hgood
      obtain ⟨_, hlast⟩ := hgood
      have hlt0 : strlt m0 (candidate day k) := strlt_of_not_strle (hlast rfl)
      have hs2 : s ∈ m0 :: rest := by
        have : s ∈ sortDesc S := mem_sortDesc.mpr hs
        rw [hS] at this
        exact this
      subst hkc
      exact strlt_of_strle_of_strlt (head_max_of_sorted_strge hsorted s hs2) hlt0
    · intro m hm hge
      injection hm with hm2
      rw [← hm2] at hge
      rw [hts, hiff]
      intro k hk1 hk9
      right
      refine ⟨rfl, ?_⟩
      rcases Nat.eq_or_lt_of_le hk9 with he | hlt
      · rw [he]
        exact hge
      · exact strle_trans (strle_of_strlt (candidate_mono hlt (by omega))) hge


/-! ### Bulk synchronization -/

/-- The claim that sibling repositories proceed independently is false: the
second repository has a non-empty plan, yet after the only step of the
first repository fails the bulk run stops without synchronizing the second
repository at all. -/
theorem sendreceive_deep_counterexample :
    planSync ["2024-01-02-0001"] [] = [(none, "2024-01-02-0001")] ∧
    sendreceiveDeepRun
        [(["2024-01-01-0001"], []), (["2024-01-02-0001"], [])]
        (fun st => st == (none, "2024-01-01-0001")) =
      ([[(none, "2024-01-01-0001")]], false) := by
  decide

/-- C7 amended: a BtrfsError in a synchronization step aborts the remaining
steps of the plan of that repository, and also every following sibling
repository: the bulk run processes siblings in order up to and including
the first one whose plan fails, and the trace of the failing repository is the
successful prefix of its plan plus the failing step. -/
theorem sendreceive_deep_abort (repos : List (List String × List String))
    (fails : Option String × String → Bool) :
    (∀ A B, sendreceiveRun A B fails =
      (match (planSync A B).dropWhile (fun st => ! fails st) with
       | [] => (planSync A B, true)
       | x :: _ => ((planSync A B).takeWhile (fun st => ! fails st) ++ [x], false))) ∧
    (sendreceiveDeepRun repos fails =
      match repos.dropWhile (fun r => (sendreceiveRun r.1 r.2 fails).2) with
      | [] => (repos.map (fun r => (sendreceiveRun r.1 r.2 fails).1), true)
      | r :: _ =>
        ((repos.takeWhile (fun r => (sendreceiveRun r.1 r.2 fails).2)).map
            (fun r => (sendreceiveRun r.1 r.2 fails).1)
          ++ [(sendreceiveRun r.1 r.2 fails).1], false)) := by
  constructor
  · intro A B
    unfold sendreceiveRun
    rw [runAll_eq]
    cases hd : (planSync A B).dropWhile (fun st => ! fails st) with
    | nil => simp
    | cons x xs => simp
  · unfold sendreceiveDeepRun
    rw [runAll_eq]
    cases hd : repos.dropWhile (fun r => (sendreceiveRun r.1 r.2 fails).2) with
    | nil => simp [hd]
    | cons r rs => simp [hd]

/-! ### Witnesses -/

theorem sendreceive_plan_structure_witness :
    ∃ d0 rest,
      diffList ["2024-01-01-0001", "2024-01-02-0001"] [] = d0 :: rest ∧
      planSync ["2024-01-01-0001", "2024-01-02-0001"] [] =
        (firstParent ["2024-01-01-0001", "2024-01-02-0001"] [] d0, d0) ::
          List.zipWith (fun p s => (some p, s)) (d0 :: rest) rest := by
  obtain ⟨d0, rest, h1, _, _, _, h5, _⟩ :=
    sendreceive_plan_structure ["2024-01-01-0001", "2024-01-02-0001"] []
      ⟨"2024-01-01-0001", by decide, by decide⟩
  exact ⟨d0, rest, h1, h5⟩

theorem unsnap_retention_witness :
    (unsnap ["2024-01-01-0001", "2024-01-02-0001", "2024-01-03-0001"] (.int 1)
      (fun _ => false)).1 =
      (sortDesc ["2024-01-01-0001", "2024-01-02-0001", "2024-01-03-0001"]).drop 1 :=
  (unsnap_retention ["2024-01-01-0001", "2024-01-02-0001", "2024-01-03-0001"]
    (by decide) 1).1

set_option maxRecDepth 2000 in
theorem timestamp_fresh_witness :
    "2024-06-01-0002" ∉ ["2024-06-01-0001"] ∧
    ∀ s ∈ ["2024-06-01-0001"], dateOf s = "2024-06-01" →
      strlt s ("2024-06-01-0002") :=
  timestamp_fresh ["2024-06-01-0001"] "2024-06-01" "2024-06-01-0002" (by decide)

theorem sendreceive_plan_empty_iff_witness :
    planSync ["2024-01-01-0001"] ["2024-01-01-0001", "2024-01-02-0001"] = [] :=
  (sendreceive_plan_empty_iff ["2024-01-01-0001"]
    ["2024-01-01-0001", "2024-01-02-0001"]).mpr (by decide)

theorem sendreceive_parent_lt_witness :
    strlt ("2024-01-01-0001") ("2024-01-02-0001") :=
  sendreceive_parent_lt ["2024-01-01-0001", "2024-01-02-0001"] []
    ((some ("2024-01-01-0001"), "2024-01-02-0001")) (by decide) ("2024-01-01-0001") rfl

theorem unsnap_abort_witness :
    (unsnap ["2024-01-01-0001", "2024-01-02-0001", "2024-01-03-0001"] (.int 1)
        (fun s => s == "2024-01-02-0001")).2 = UnsnapResult.btrfsError ↔
      ∃ s ∈ (["2024-01-02-0001", "2024-01-01-0001"] : List String),
        (s == "2024-01-02-0001") = true :=
  (unsnap_abort ["2024-01-01-0001", "2024-01-02-0001", "2024-01-03-0001"] 1 (by decide)
    (fun s => s == "2024-01-02-0001") ["2024-01-02-0001", "2024-01-01-0001"] (by decide)).2

theorem sendreceive_deep_abort_witness :
    sendreceiveRun ["2024-01-01-0001"] [] (fun _ => false) =
      (planSync ["2024-01-01-0001"] [], true) := by
  have h := (sendreceive_deep_abort [] (fun _ => false)).1 ["2024-01-01-0001"] []
  rw [h]
  decide

theorem unsnap_invalid_keep_witness :
    unsnap ["2024-01-01-0001"] (.int (-1)) (fun _ => false) = ([], .keepError) :=
  unsnap_invalid_keep ["2024-01-01-0001"] (fun _ => false) (.int (-1))
    (by intro n hn he; injection he with h2; omega)

set_option maxRecDepth 2000 in
theorem timestamp_exhaustion_witness :
    ∃ c, 1 ≤ c ∧ c ≤ 9999 ∧ ("2024-06-01-0002") = candidate ("2024-06-01") c :=
  (timestamp_exhaustion ["2024-06-01-0001"] "2024-06-01").2.1 ("2024-06-01-0002") (by decide)

set_option maxRecDepth 2000 in
theorem timestamp_gt_max_witness :
    ∀ s ∈ ["2024-06-01-0001"], strlt s ("2024-06-01-0002") :=
  (timestamp_gt_max ["2024-06-01-0001"] "2024-06-01").1 ("2024-06-01-0002") (by decide)

end Btrsnap
